import Mathlib

/-!
# Formal model of the terminal torus renderer (`src/main.rs`)

A shallow embedding of the renderer.  `f32` values are modelled as real
numbers; each draw from the thread-local RNG (`rand::thread_rng().gen::<f32>()
- 0.5`) is modelled as an explicit offset parameter; `Vec` indexing, which
panics when out of bounds, is modelled with `Option`.  nalgebra matrix
operations (`from_euler_angles`, `new_translation`, `new_scaling`,
`new_perspective`, `transform_point`, `transform_vector`, `normalize`) are
embedded by their defining formulas over 4×4 real matrices.
-/

set_option maxHeartbeats 1000000

noncomputable section

namespace Donut

/-- Rust `f32::round`: round half away from zero. -/
def roundAway (x : ℝ) : ℤ :=
  if 0 ≤ x then ⌊x + 1 / 2⌋ else -⌊-x + 1 / 2⌋

/-- `relu` from `src/main.rs`. -/
def relu (x : ℝ) : ℝ :=
  if 0 ≤ x then x else 0

/-- `dither` from `src/main.rs`.  The random draw
`rand::thread_rng().gen::<f32>() - 0.5` is the parameter `u`
(uniform in `[-0.5, 0.5)`). -/
def dither (i : ℝ) (clip : ℕ) (u : ℝ) : ℕ :=
  let r : ℤ := roundAway (i + u)
  if r < 0 then 0
  else if clip ≤ r.toNat then clip - 1 else r.toNat

/-- The palette `"-~+*=;%#$@"` of `poke_if`, as its byte values. -/
def lightlevelStr : List ℕ :=
  [45, 126, 43, 42, 61, 59, 37, 35, 36, 64]

/-- `struct FrameBuffer` from `src/main.rs` (`brightness` bytes as `ℕ`). -/
structure FrameBuffer where
  brightness : List ℕ
  z_buffer : List ℝ
  sx : ℕ
  sy : ℕ

/-- `FrameBuffer::clear`.  The terminal size read from crossterm is passed
as the parameters `sx, sy`; the previous buffer contents `fb` are entirely
discarded (`Vec::clear` followed by a full-length `resize`). -/
def FrameBuffer.clear (_fb : FrameBuffer) (sx sy : ℕ) : FrameBuffer :=
  let size := sy * (sx + 1)
  { sx := sx
    sy := sy
    z_buffer := List.replicate size (-1000 : ℝ)
    brightness :=
      (List.range sy).foldl (fun b y => b.set (y * (sx + 1) + sx) 10)
        (List.replicate size 32) }

/-- `FrameBuffer::poke_if`.  `u` models the RNG draw inside the `dither`
call.  An out-of-bounds `Vec` index (a Rust panic) is `none`. -/
def FrameBuffer.poke_if (fb : FrameBuffer) (x y : ℕ) (value z : ℝ) (u : ℝ) :
    Option FrameBuffer :=
  let n := lightlevelStr.length
  let ix := y * (fb.sx + 1) + x
  if hz : ix < fb.z_buffer.length then
    if fb.z_buffer.get ⟨ix, hz⟩ < z then
      if ix < fb.brightness.length then
        some { fb with
          z_buffer := fb.z_buffer.set ix z
          brightness :=
            fb.brightness.set ix (lightlevelStr.getD (dither (value * n) n u) 0) }
      else none
    else some fb
  else none

/-- One `poke_if` call's arguments (light value, depth, RNG draw). -/
structure Poke where
  value : ℝ
  z : ℝ
  u : ℝ

instance : Inhabited Poke := ⟨⟨0, 0, 0⟩⟩

/-- A sequence of `poke_if` calls on the fixed cell `(x, y)`. -/
def runPokes (fb0 : FrameBuffer) (x y : ℕ) (L : List Poke) : Option FrameBuffer :=
  L.foldl (fun ofb p => ofb.bind fun fb => fb.poke_if x y p.value p.z p.u) (some fb0)

/-- The action of one `poke_if` call on the `(depth, char)` pair of its cell. -/
def pokeCell (s : ℝ × ℕ) (p : Poke) : ℝ × ℕ :=
  if s.1 < p.z then
    (p.z, lightlevelStr.getD
      (dither (p.value * lightlevelStr.length) lightlevelStr.length p.u) 0)
  else s

/-- The palette byte a `poke_if` call stores when it wins the depth test. -/
def paletteChar (p : Poke) : ℕ :=
  lightlevelStr.getD (dither (p.value * lightlevelStr.length) lightlevelStr.length p.u) 0

/-- Depth of the cell at flat index `ix` (0 when out of bounds). -/
def zAt (fb : FrameBuffer) (ix : ℕ) : ℝ := fb.z_buffer.getD ix 0

/-- Byte of the cell at flat index `ix` (0 when out of bounds). -/
def bAt (fb : FrameBuffer) (ix : ℕ) : ℕ := fb.brightness.getD ix 0

/-- Maximum of the far sentinel `-1000` and all depth arguments in `L`. -/
def maxDepth (L : List Poke) : ℝ :=
  L.foldl (fun m p => max m p.z) (-1000)

/-- Character-buffer invariant: correct length, a newline byte at column
`sx` of every row, and everywhere else either a blank or a palette byte. -/
def charInv (fb : FrameBuffer) : Prop :=
  fb.brightness.length = fb.sy * (fb.sx + 1) ∧
  ∀ i b, fb.brightness[i]? = some b →
    (i % (fb.sx + 1) = fb.sx → b = 10) ∧
    (i % (fb.sx + 1) ≠ fb.sx → b = 32 ∨ b ∈ lightlevelStr)

/-- 3-vector of reals (nalgebra `Vector3<f32>` / `Point3<f32>`). -/
structure Vec3 where
  x : ℝ
  y : ℝ
  z : ℝ

/-- Dot product. -/
def dot3 (a b : Vec3) : ℝ := a.x * b.x + a.y * b.y + a.z * b.z

/-- Componentwise difference. -/
def sub3 (a b : Vec3) : Vec3 := ⟨a.x - b.x, a.y - b.y, a.z - b.z⟩

/-- Euclidean norm. -/
def norm3 (a : Vec3) : ℝ := Real.sqrt (dot3 a a)

/-- nalgebra `normalize`: divide by the Euclidean norm. -/
def normalize3 (a : Vec3) : Vec3 :=
  ⟨a.x / norm3 a, a.y / norm3 a, a.z / norm3 a⟩

/-- nalgebra `Matrix4<f32>`. -/
abbrev Mat4 := Matrix (Fin 4) (Fin 4) ℝ

/-- nalgebra `transform_point`: homogeneous multiply then divide by `w`. -/
def transformPoint (m : Mat4) (p : Vec3) : Vec3 :=
  let w := m 3 0 * p.x + m 3 1 * p.y + m 3 2 * p.z + m 3 3
  ⟨(m 0 0 * p.x + m 0 1 * p.y + m 0 2 * p.z + m 0 3) / w,
   (m 1 0 * p.x + m 1 1 * p.y + m 1 2 * p.z + m 1 3) / w,
   (m 2 0 * p.x + m 2 1 * p.y + m 2 2 * p.z + m 2 3) / w⟩

/-- nalgebra `transform_vector`: apply the upper-left 3×3 linear part. -/
def transformVector (m : Mat4) (v : Vec3) : Vec3 :=
  ⟨m 0 0 * v.x + m 0 1 * v.y + m 0 2 * v.z,
   m 1 0 * v.x + m 1 1 * v.y + m 1 2 * v.z,
   m 2 0 * v.x + m 2 1 * v.y + m 2 2 * v.z⟩

/-- Homogeneous rotation about the x axis. -/
def rotX (t : ℝ) : Mat4 :=
  Matrix.of ![![1, 0, 0, 0],
              ![0, Real.cos t, -Real.sin t, 0],
              ![0, Real.sin t, Real.cos t, 0],
              ![0, 0, 0, 1]]

/-- Homogeneous rotation about the y axis. -/
def rotY (t : ℝ) : Mat4 :=
  Matrix.of ![![Real.cos t, 0, Real.sin t, 0],
              ![0, 1, 0, 0],
              ![-Real.sin t, 0, Real.cos t, 0],
              ![0, 0, 0, 1]]

/-- Homogeneous rotation about the z axis. -/
def rotZ (t : ℝ) : Mat4 :=
  Matrix.of ![![Real.cos t, -Real.sin t, 0, 0],
              ![Real.sin t, Real.cos t, 0, 0],
              ![0, 0, 1, 0],
              ![0, 0, 0, 1]]

/-- nalgebra `Matrix4::from_euler_angles(roll, pitch, yaw)`:
`Rz(yaw) * Ry(pitch) * Rx(roll)`. -/
def fromEulerAngles (roll pitch yaw : ℝ) : Mat4 :=
  rotZ yaw * rotY pitch * rotX roll

/-- nalgebra `Matrix4::new_translation`. -/
def newTranslation (t : Vec3) : Mat4 :=
  Matrix.of ![![1, 0, 0, t.x],
              ![0, 1, 0, t.y],
              ![0, 0, 1, t.z],
              ![0, 0, 0, 1]]

/-- nalgebra `Matrix4::new_scaling`. -/
def newScaling (s : ℝ) : Mat4 :=
  Matrix.of ![![s, 0, 0, 0],
              ![0, s, 0, 0],
              ![0, 0, s, 0],
              ![0, 0, 0, 1]]

/-- nalgebra `Matrix4::new_perspective(aspect, fovy, znear, zfar)`
(OpenGL convention): the matrix payload of `Perspective3::new`.  The
zero-aspect assertion of `Perspective3::new` is modelled separately by
`newPerspectiveChecked`. -/
def newPerspective (aspect fovy znear zfar : ℝ) : Mat4 :=
  let f := 1 / Real.tan (fovy / 2)
  Matrix.of ![![f / aspect, 0, 0, 0],
              ![0, f, 0, 0],
              ![0, 0, (zfar + znear) / (znear - zfar), 2 * zfar * znear / (znear - zfar)],
              ![0, 0, -1, 0]]

/-- `light_dir = Vec3::new(1.0, 5.0, -3.0).normalize()`. -/
def lightDir : Vec3 := normalize3 ⟨1, 5, -3⟩

/-- `cam_pos = Vec3::new(0.0, 0.0, 4.0)`. -/
def camPos : Vec3 := ⟨0, 0, 4⟩

/-- `let (n1, n2) = (500, 200)`: torus subdivisions. -/
def N1 : ℕ := 500

/-- Minor subdivision count. -/
def N2 : ℕ := 200

/-- `r1 = 1.0`: major radius. -/
def R1 : ℝ := 1

/-- `r2 = 0.45`: minor radius. -/
def R2 : ℝ := 0.45

/-- `two_pi = 2.0 * 3.1415926535`, the program's circle constant. -/
def twoPi : ℝ := 2 * 3.1415926535

/-- `3.141 / 4.0`, the program's 45° field of view. -/
def fovConst : ℝ := 3.141 / 4

/-- Major angle `phi1 = two_pi * i1 / n1` of sample column `i1`. -/
def phi1 (i1 : ℕ) : ℝ := twoPi * i1 / N1

/-- Minor angle `phi2 = two_pi * i2 / n2` of sample row `i2`. -/
def phi2 (i2 : ℕ) : ℝ := twoPi * i2 / N2

/-- `cp`: the minor-circle point `(r2 cos φ2 + r1, 0, r2 sin φ2)`. -/
def circlePoint (t : ℝ) : Vec3 := ⟨R2 * Real.cos t + R1, 0, R2 * Real.sin t⟩

/-- `cn`: the minor-circle outward normal `(cos φ2, 0, sin φ2)`. -/
def circleNormal (t : ℝ) : Vec3 := ⟨Real.cos t, 0, Real.sin t⟩

/-- The `screenspace` matrix built in `main` from the terminal size. -/
def screenspace (sx sy : ℕ) : Mat4 :=
  newTranslation ⟨0.5 * sx, 0.5 * sy, 0⟩ *
    newScaling (0.5 * (min sx sy : ℕ)) *
    newPerspective (((min sx sy : ℕ) : ℝ) / ((max sx sy : ℕ) : ℝ)) fovConst 0.1 1000 *
    newTranslation camPos

/-- nalgebra `Perspective3::new` including its assertion
`assert!(!relative_eq!(aspect, 0), "The aspect ratio must not be zero.")`:
a zero aspect ratio panics (modelled as `none`) before any matrix is
built; otherwise the `newPerspective` matrix is returned.  (When the f32
aspect is `0.0 / 0.0 = NaN` rather than an exact zero, the real program
passes this assert and instead panics later, at `dither(NaN, 0)`; that
IEEE path has no counterpart in the real-number model.) -/
def newPerspectiveChecked (aspect fovy znear zfar : ℝ) : Option Mat4 :=
  if aspect = 0 then none else some (newPerspective aspect fovy znear zfar)

/-- The `screenspace` construction of `main` including nalgebra's
zero-aspect panic: `none` when `Perspective3::new` asserts. -/
def screenspaceChecked (sx sy : ℕ) : Option Mat4 :=
  (newPerspectiveChecked (((min sx sy : ℕ) : ℝ) / ((max sx sy : ℕ) : ℝ))
      fovConst 0.1 1000).map fun pers =>
    newTranslation ⟨0.5 * sx, 0.5 * sy, 0⟩ * newScaling (0.5 * (min sx sy : ℕ)) *
      pers * newTranslation camPos

/-- The per-sample transform block of `main`: from the sample indices and
the current global transform to `(p_world, p_screen, n)`, exactly as the
code chains `rot`, `global_transform` and `screenspace`. -/
def sampleCode (g : Mat4) (sx sy i1 i2 : ℕ) : Vec3 × Vec3 × Vec3 :=
  let rot := fromEulerAngles 0 0 (phi1 i1)
  let cp := circlePoint (phi2 i2)
  let cn := circleNormal (phi2 i2)
  let p1 := transformPoint rot cp
  let m1 := transformVector rot cn
  let p2 := transformPoint g p1
  let m2 := transformVector g m1
  let p3 := transformPoint (screenspace sx sy) p2
  (p2, p3, normalize3 m2)

/-- Spec-side formulation: `p_world = G · Rot_z(φ1) · circle_point(φ2)`. -/
def specPWorld (g : Mat4) (i1 i2 : ℕ) : Vec3 :=
  transformPoint (g * fromEulerAngles 0 0 (phi1 i1)) (circlePoint (phi2 i2))

/-- Spec-side formulation: `n_world = normalize(G · Rot_z(φ1) · (cos φ2, 0, sin φ2))`. -/
def specNWorld (g : Mat4) (i1 i2 : ℕ) : Vec3 :=
  normalize3 (transformVector (g * fromEulerAngles 0 0 (phi1 i1)) (circleNormal (phi2 i2)))

/-- Spec-side formulation: `p_screen = S · p_world` with homogeneous division. -/
def specPScreen (g : Mat4) (sx sy i1 i2 : ℕ) : Vec3 :=
  transformPoint (screenspace sx sy) (specPWorld g i1 i2)

/-- `cam_vec`: unit vector pointing from `p_world` to the camera. -/
def camVec (pWorld : Vec3) : Vec3 := normalize3 (sub3 camPos pWorld)

/-- The lighting block of `main` (Phong-like model with upper clamp). -/
def lightCode (n cv ld : Vec3) : ℝ :=
  let a := relu (dot3 n ld)
  let r := 2 * a * dot3 n cv - dot3 ld cv
  let light := 0.75 * a + 0.25 * r * r * r
  if 0.99 < light then 0.99 else light

/-- The cull-and-draw block of `main`: given the sample's screen point,
world point and unit normal, either leave the frame buffer untouched or
dither the coordinates and call `poke_if`.  `u1, u2, u3` model the three
RNG draws. -/
def cullDraw (fb : FrameBuffer) (pScreen pWorld n : Vec3) (u1 u2 u3 : ℝ) :
    Option FrameBuffer :=
  let cv := camVec pWorld
  if pScreen.x < 0 ∨ pScreen.y < 0 ∨ 0 < dot3 cv n ∨
      (fb.sx : ℝ) ≤ pScreen.x ∨ (fb.sy : ℝ) ≤ pScreen.y then
    some fb
  else
    let light := lightCode n cv lightDir
    if 0 < light then
      fb.poke_if (dither pScreen.x fb.sx u1) (dither pScreen.y fb.sy u2)
        light pScreen.z u3
    else some fb

/-- The per-frame update of `global_transform` in `main`. -/
def advanceTransform (g : Mat4) : Mat4 :=
  g * fromEulerAngles 0 0 0.03 * fromEulerAngles 0.1 (-0.05) 0

/-- The global transform after `n` frames (`Mat4::identity()` at start). -/
def globalTransformAfter : ℕ → Mat4
  | 0 => 1
  | n + 1 => advanceTransform (globalTransformAfter n)

/-- A homogeneous 4×4 matrix that is a rigid rotation: orthogonal,
determinant 1, no translation column, affine last row. -/
def IsRigidRotation (m : Mat4) : Prop :=
  m.transpose * m = 1 ∧ m.det = 1 ∧
  m 0 3 = 0 ∧ m 1 3 = 0 ∧ m 2 3 = 0 ∧
  m 3 0 = 0 ∧ m 3 1 = 0 ∧ m 3 2 = 0 ∧ m 3 3 = 1

/-- A 4×4 matrix whose last row is `(0, 0, 0, 1)` (an affine map, no
projective part). -/
def affineRow3 (m : Mat4) : Prop :=
  m 3 0 = 0 ∧ m 3 1 = 0 ∧ m 3 2 = 0 ∧ m 3 3 = 1

end Donut

namespace Donut

theorem dither_lt (i : ℝ) (clip : ℕ) (u : ℝ) (hc : 0 < clip) :
    dither i clip u < clip := by
  unfold dither
  dsimp only
  split
  · exact hc
  · split
    · omega
    · omega

theorem dither_le_sub_one (i : ℝ) (clip : ℕ) (u : ℝ) (hc : 0 < clip) :
    dither i clip u ≤ clip - 1 := by
  have := dither_lt i clip u hc
  omega

theorem dither_neg_five (u : ℝ) (_hu0 : -0.5 ≤ u) (hu1 : u < 0.5) :
    dither (-5) 10 u = 0 := by
  unfold dither roundAway
  have hx : ¬ (0 : ℝ) ≤ -5 + u := by norm_num; linarith
  have hfl : (5 : ℤ) ≤ ⌊-(-5 + u) + 1 / 2⌋ := by
    rw [Int.le_floor]
    push_cast
    linarith
  rw [if_neg hx]
  have : -⌊-(-5 + u) + 1 / 2⌋ < 0 := by omega
  simp only [this, if_pos]

theorem dither_thousand (u : ℝ) (hu0 : -0.5 ≤ u) (hu1 : u < 0.5) :
    dither 1000 10 u = 9 := by
  unfold dither roundAway
  have hx : (0 : ℝ) ≤ 1000 + u := by linarith
  have hfl : ⌊(1000 : ℝ) + u + 1 / 2⌋ = 1000 := by
    rw [Int.floor_eq_iff]
    push_cast
    constructor <;> linarith
  rw [if_pos hx, hfl]
  norm_num

/-- C4: `dither(value, count)` adds the offset `u ∈ [-0.5, 0.5)` drawn from
the RNG, rounds to nearest, and clamps to `[0, count-1]`; in particular
`dither(-5.0, 10) = 0` and `dither(1000.0, 10) = 9` for every offset. -/
theorem C4_dither_bounded (v u : ℝ) (c : ℕ) (hc : 0 < c)
    (hu0 : -0.5 ≤ u) (hu1 : u < 0.5) :
    dither v c u ≤ c - 1 ∧ dither (-5) 10 u = 0 ∧ dither 1000 10 u = 9 :=
  ⟨dither_le_sub_one v c u hc, dither_neg_five u hu0 hu1, dither_thousand u hu0 hu1⟩

/-- C4 witness at `v = 0.3`, `u = 0.25`, `c = 10`. -/
theorem C4_witness :
    dither 0.3 10 0.25 ≤ 9 ∧ dither (-5) 10 0.25 = 0 ∧ dither 1000 10 0.25 = 9 :=
  C4_dither_bounded 0.3 0.25 10 (by norm_num) (by norm_num) (by norm_num)

theorem foldl_set_length (c : ℕ) (g : ℕ → ℕ) :
    ∀ (l : List ℕ) (b : List ℕ),
      (l.foldl (fun acc y => acc.set (g y) c) b).length = b.length := by
  intro l
  induction l with
  | nil => intro b; rfl
  | cons hd tl ih =>
    intro b
    simp only [List.foldl_cons]
    rw [ih, List.length_set]

theorem newline_index_iff (sx m i : ℕ) :
    i = m * (sx + 1) + sx ↔ i % (sx + 1) = sx ∧ i / (sx + 1) = m := by
  constructor
  · rintro rfl
    have hcomm : m * (sx + 1) + sx = (sx + 1) * m + sx := by ring
    rw [hcomm]
    constructor
    · rw [Nat.mul_add_mod]
      exact Nat.mod_eq_of_lt (Nat.lt_succ_self sx)
    · rw [Nat.mul_add_div (Nat.succ_pos sx)]
      simp [Nat.div_eq_of_lt (Nat.lt_succ_self sx)]
  · rintro ⟨h1, h2⟩
    have := Nat.div_add_mod i (sx + 1)
    rw [h1, h2] at this
    rw [← this]
    ring

theorem foldl_newlines_get (sx c : ℕ) :
    ∀ (m : ℕ) (b : List ℕ) (i : ℕ),
      ((List.range m).foldl (fun acc y => acc.set (y * (sx + 1) + sx) c) b)[i]? =
        if i % (sx + 1) = sx ∧ i / (sx + 1) < m ∧ i < b.length then some c
        else b[i]? := by
  intro m
  induction m with
  | zero => intro b i; simp
  | succ m ih =>
    intro b i
    rw [List.range_succ, List.foldl_append]
    simp only [List.foldl_cons, List.foldl_nil]
    rw [List.getElem?_set, foldl_set_length, ih]
    by_cases hJ : m * (sx + 1) + sx = i
    · obtain ⟨h1, h2⟩ := (newline_index_iff sx m i).1 hJ.symm
      rw [if_pos hJ, hJ]
      by_cases hlen : i < b.length
      · rw [if_pos hlen, if_pos ⟨h1, by rw [h2]; exact Nat.lt_succ_self m, hlen⟩]
      · rw [if_neg hlen, if_neg (fun hc => hlen hc.2.2),
          List.getElem?_eq_none (Nat.le_of_not_lt hlen)]
    · rw [if_neg hJ]
      by_cases hcond : i % (sx + 1) = sx ∧ i / (sx + 1) < m ∧ i < b.length
      · rw [if_pos hcond, if_pos ⟨hcond.1, Nat.lt_succ_of_lt hcond.2.1, hcond.2.2⟩]
      · rw [if_neg hcond, if_neg ?_]
        rintro ⟨h1, h2, h3⟩
        rcases Nat.lt_succ_iff_lt_or_eq.1 h2 with h | h
        · exact hcond ⟨h1, h, h3⟩
        · exact hJ ((newline_index_iff sx m i).2 ⟨h1, h⟩).symm

theorem clear_sx (fb : FrameBuffer) (sx sy : ℕ) : (fb.clear sx sy).sx = sx := rfl

theorem clear_sy (fb : FrameBuffer) (sx sy : ℕ) : (fb.clear sx sy).sy = sy := rfl

theorem clear_z_length (fb : FrameBuffer) (sx sy : ℕ) :
    (fb.clear sx sy).z_buffer.length = sy * (sx + 1) := by
  simp [FrameBuffer.clear]

theorem clear_b_length (fb : FrameBuffer) (sx sy : ℕ) :
    (fb.clear sx sy).brightness.length = sy * (sx + 1) := by
  simp only [FrameBuffer.clear]
  rw [foldl_set_length, List.length_replicate]

theorem clear_z_get (fb : FrameBuffer) (sx sy i : ℕ) :
    (fb.clear sx sy).z_buffer[i]? =
      if i < sy * (sx + 1) then some (-1000 : ℝ) else none := by
  simp [FrameBuffer.clear, List.getElem?_replicate]

theorem clear_b_get (fb : FrameBuffer) (sx sy i : ℕ) (hi : i < sy * (sx + 1)) :
    (fb.clear sx sy).brightness[i]? =
      some (if i % (sx + 1) = sx then 10 else 32) := by
  show ((List.range sy).foldl (fun b y => b.set (y * (sx + 1) + sx) 10)
      (List.replicate (sy * (sx + 1)) 32))[i]? = _
  rw [foldl_newlines_get]
  rw [List.length_replicate]
  by_cases hm : i % (sx + 1) = sx
  · have hdiv : i / (sx + 1) < sy :=
      Nat.div_lt_of_lt_mul (Nat.mul_comm sy (sx + 1) ▸ hi)
    rw [if_pos ⟨hm, hdiv, hi⟩, if_pos hm]
  · rw [if_neg (by tauto), if_neg hm, List.getElem?_replicate, if_pos hi]

/-- C6: `clear` resizes both arrays to `sy * (sx + 1)` for the current
terminal size, fills every depth entry with the far sentinel `-1000`, and
fills the character array with blanks except a newline at column `sx` of
each row, regardless of the previous contents or size of the buffer. -/
theorem C6_clear_full_reset (fb : FrameBuffer) (sx sy : ℕ) :
    (fb.clear sx sy).sx = sx ∧ (fb.clear sx sy).sy = sy ∧
    (fb.clear sx sy).z_buffer.length = sy * (sx + 1) ∧
    (fb.clear sx sy).brightness.length = sy * (sx + 1) ∧
    (∀ i, i < sy * (sx + 1) → (fb.clear sx sy).z_buffer[i]? = some (-1000)) ∧
    (∀ i, i < sy * (sx + 1) →
      (fb.clear sx sy).brightness[i]? =
        some (if i % (sx + 1) = sx then 10 else 32)) :=
  ⟨clear_sx fb sx sy, clear_sy fb sx sy, clear_z_length fb sx sy,
   clear_b_length fb sx sy,
   fun i hi => by rw [clear_z_get, if_pos hi],
   fun i hi => clear_b_get fb sx sy i hi⟩

/-- C6 witness: a 1×2 clear of a stale buffer, with the depth sentinel at
index 0 and the newline byte at index 1 inspected concretely. -/
theorem C6_witness :
    (FrameBuffer.clear ⟨[77], [3.5], 5, 5⟩ 1 2).z_buffer[0]? = some (-1000 : ℝ) ∧
    (FrameBuffer.clear ⟨[77], [3.5], 5, 5⟩ 1 2).brightness[1]? = some 10 ∧
    (FrameBuffer.clear ⟨[77], [3.5], 5, 5⟩ 1 2).brightness[2]? = some 32 := by
  have h := C6_clear_full_reset ⟨[77], [3.5], 5, 5⟩ 1 2
  refine ⟨h.2.2.2.2.1 0 (by norm_num), ?_, ?_⟩
  · have := h.2.2.2.2.2 1 (by norm_num)
    simpa using this
  · have := h.2.2.2.2.2 2 (by norm_num)
    simpa using this

theorem cell_index_lt (sx sy x y : ℕ) (hx : x < sx) (hy : y < sy) :
    y * (sx + 1) + x < sy * (sx + 1) := by
  have h1 : y * (sx + 1) + x < (y + 1) * (sx + 1) := by
    rw [Nat.succ_mul]
    exact Nat.add_lt_add_left (Nat.lt_succ_of_lt hx) _
  exact Nat.lt_of_lt_of_le h1 (Nat.mul_le_mul_right _ (Nat.succ_le_of_lt hy))

theorem poke_if_eq (fb : FrameBuffer) (x y : ℕ) (v z u : ℝ)
    (hz : y * (fb.sx + 1) + x < fb.z_buffer.length)
    (hb : y * (fb.sx + 1) + x < fb.brightness.length) :
    fb.poke_if x y v z u =
      some (if zAt fb (y * (fb.sx + 1) + x) < z then
        { fb with
          z_buffer := fb.z_buffer.set (y * (fb.sx + 1) + x) z
          brightness := fb.brightness.set (y * (fb.sx + 1) + x)
            (paletteChar ⟨v, z, u⟩) }
      else fb) := by
  simp only [FrameBuffer.poke_if]
  rw [dif_pos hz]
  rw [zAt, List.getD_eq_getElem _ _ hz, List.get_eq_getElem]
  by_cases hlt : fb.z_buffer[y * (fb.sx + 1) + x] < z
  · rw [if_pos hlt, if_pos hb, if_pos hlt]
    rfl
  · rw [if_neg hlt, if_neg hlt]

theorem poke_if_cells (fb : FrameBuffer) (x y : ℕ) (v z u : ℝ)
    (hx : x < fb.sx) (hy : y < fb.sy)
    (hlz : fb.z_buffer.length = fb.sy * (fb.sx + 1))
    (hlb : fb.brightness.length = fb.sy * (fb.sx + 1)) :
    ∃ fb', fb.poke_if x y v z u = some fb' ∧
      fb'.sx = fb.sx ∧ fb'.sy = fb.sy ∧
      fb'.z_buffer.length = fb.z_buffer.length ∧
      fb'.brightness.length = fb.brightness.length ∧
      (zAt fb' (y * (fb.sx + 1) + x), bAt fb' (y * (fb.sx + 1) + x)) =
        pokeCell (zAt fb (y * (fb.sx + 1) + x), bAt fb (y * (fb.sx + 1) + x))
          ⟨v, z, u⟩ ∧
      (∀ j, j ≠ y * (fb.sx + 1) + x →
        fb'.z_buffer[j]? = fb.z_buffer[j]? ∧
        fb'.brightness[j]? = fb.brightness[j]?) ∧
      (z ≤ zAt fb (y * (fb.sx + 1) + x) → fb' = fb) := by
  have hz : y * (fb.sx + 1) + x < fb.z_buffer.length := by
    rw [hlz]; exact cell_index_lt _ _ _ _ hx hy
  have hb : y * (fb.sx + 1) + x < fb.brightness.length := by
    rw [hlb]; exact cell_index_lt _ _ _ _ hx hy
  rw [poke_if_eq fb x y v z u hz hb]
  by_cases hlt : zAt fb (y * (fb.sx + 1) + x) < z
  · rw [if_pos hlt]
    refine ⟨_, rfl, rfl, rfl, List.length_set _ _ _, List.length_set _ _ _, ?_, ?_, ?_⟩
    · show (zAt _ _, bAt _ _) = _
      rw [pokeCell, if_pos hlt]
      refine Prod.ext ?_ ?_
      · show zAt _ _ = _
        rw [zAt, List.getD_eq_getElem?_getD, List.getElem?_set_eq_of_lt _ hz]
        rfl
      · show bAt _ _ = _
        rw [bAt, List.getD_eq_getElem?_getD, List.getElem?_set_eq_of_lt _ hb]
        rfl
    · intro j hj
      exact ⟨List.getElem?_set_ne (Ne.symm hj), List.getElem?_set_ne (Ne.symm hj)⟩
    · intro hle
      exact absurd hlt (not_lt.2 hle)
  · rw [if_neg hlt]
    refine ⟨fb, rfl, rfl, rfl, rfl, rfl, ?_, fun j _ => ⟨rfl, rfl⟩, fun _ => rfl⟩
    rw [pokeCell, if_neg hlt]

/-- C10: for `poke_if(x, y, value, z)` with `x < sx`, `y < sy` on buffers of
the expected size, the flat index `y*(sx+1)+x` is within bounds of both
arrays, the call succeeds (no panic), modifies at most the depth and
character entries at that single index, leaves `sx`, `sy` unchanged, and
when the stored depth is `≥ z` both arrays are left entirely unchanged. -/
theorem C10_poke_if_frame (fb : FrameBuffer) (x y : ℕ) (v z u : ℝ)
    (hx : x < fb.sx) (hy : y < fb.sy)
    (hlz : fb.z_buffer.length = fb.sy * (fb.sx + 1))
    (hlb : fb.brightness.length = fb.sy * (fb.sx + 1)) :
    y * (fb.sx + 1) + x < fb.z_buffer.length ∧
    y * (fb.sx + 1) + x < fb.brightness.length ∧
    ∃ fb', fb.poke_if x y v z u = some fb' ∧
      fb'.sx = fb.sx ∧ fb'.sy = fb.sy ∧
      (∀ j, j ≠ y * (fb.sx + 1) + x →
        fb'.z_buffer[j]? = fb.z_buffer[j]? ∧
        fb'.brightness[j]? = fb.brightness[j]?) ∧
      (z ≤ zAt fb (y * (fb.sx + 1) + x) → fb' = fb) := by
  obtain ⟨fb', h1, h2, h3, _, _, _, h7, h8⟩ := poke_if_cells fb x y v z u hx hy hlz hlb
  exact ⟨by rw [hlz]; exact cell_index_lt _ _ _ _ hx hy,
    by rw [hlb]; exact cell_index_lt _ _ _ _ hx hy,
    fb', h1, h2, h3, h7, h8⟩

/-- C10 witness: cell (1,0) of a fresh 2×1 buffer. -/
theorem C10_witness :
    1 < (FrameBuffer.clear ⟨[], [], 0, 0⟩ 2 1).z_buffer.length ∧
    1 < (FrameBuffer.clear ⟨[], [], 0, 0⟩ 2 1).brightness.length ∧
    ∃ fb', (FrameBuffer.clear ⟨[], [], 0, 0⟩ 2 1).poke_if 1 0 0.5 1 0 = some fb' ∧
      fb'.sx = 2 ∧ fb'.sy = 1 ∧
      (∀ j, j ≠ 1 →
        fb'.z_buffer[j]? = (FrameBuffer.clear ⟨[], [], 0, 0⟩ 2 1).z_buffer[j]? ∧
        fb'.brightness[j]? = (FrameBuffer.clear ⟨[], [], 0, 0⟩ 2 1).brightness[j]?) ∧
      ((1 : ℝ) ≤ zAt (FrameBuffer.clear ⟨[], [], 0, 0⟩ 2 1) 1 → fb' = FrameBuffer.clear ⟨[], [], 0, 0⟩ 2 1) :=
  C10_poke_if_frame (FrameBuffer.clear ⟨[], [], 0, 0⟩ 2 1) 1 0 0.5 1 0
    (by rw [clear_sx]; norm_num) (by rw [clear_sy]; norm_num)
    (clear_z_length ⟨[], [], 0, 0⟩ 2 1) (clear_b_length ⟨[], [], 0, 0⟩ 2 1)

theorem paletteChar_mem (p : Poke) : paletteChar p ∈ lightlevelStr := by
  rw [paletteChar,
    List.getD_eq_getElem _ _ (dither_lt _ _ _ (by decide))]
  exact List.getElem_mem _

theorem mem_palette_lt_128 : ∀ b ∈ lightlevelStr, b < 128 := by decide

theorem cell_index_mod (sx x y : ℕ) (hx : x < sx + 1) :
    (y * (sx + 1) + x) % (sx + 1) = x := by
  have hcomm : y * (sx + 1) + x = (sx + 1) * y + x := by ring
  rw [hcomm, Nat.mul_add_mod]
  exact Nat.mod_eq_of_lt hx

theorem charInv_clear (fb : FrameBuffer) (sx sy : ℕ) :
    charInv (fb.clear sx sy) := by
  refine ⟨clear_b_length fb sx sy, fun i b hib => ?_⟩
  have hi : i < sy * (sx + 1) := by
    by_contra hge
    rw [List.getElem?_eq_none (by rw [clear_b_length]; omega)] at hib
    cases hib
  rw [clear_b_get fb sx sy i hi] at hib
  injection hib with hb
  rw [clear_sx]
  constructor
  · intro hm
    rw [← hb, if_pos hm]
  · intro hm
    rw [← hb, if_neg hm]
    exact Or.inl rfl

theorem poke_if_shape (fb fb' : FrameBuffer) (x y : ℕ) (v z u : ℝ)
    (hp : fb.poke_if x y v z u = some fb') :
    fb' = fb ∨
    (y * (fb.sx + 1) + x < fb.brightness.length ∧
      fb' = { fb with
        z_buffer := fb.z_buffer.set (y * (fb.sx + 1) + x) z
        brightness := fb.brightness.set (y * (fb.sx + 1) + x)
          (paletteChar ⟨v, z, u⟩) }) := by
  simp only [FrameBuffer.poke_if] at hp
  split at hp
  · split at hp
    · split at hp
      · injection hp with hp
        exact Or.inr ⟨by assumption, hp.symm⟩
      · cases hp
    · injection hp with hp
      exact Or.inl hp.symm
  · cases hp

theorem charInv_poke (fb fb' : FrameBuffer) (x y : ℕ) (v z u : ℝ)
    (hx : x < fb.sx)
    (hp : fb.poke_if x y v z u = some fb')
    (hinv : charInv fb) : charInv fb' := by
  rcases poke_if_shape fb fb' x y v z u hp with rfl | ⟨hb, rfl⟩
  · exact hinv
  · refine ⟨by rw [List.length_set]; exact hinv.1, fun i b hib => ?_⟩
    by_cases hij : i = y * (fb.sx + 1) + x
    · rw [hij, List.getElem?_set_eq_of_lt _ hb] at hib
      injection hib with hb'
      have hmod : i % (fb.sx + 1) = x := by
        rw [hij]; exact cell_index_mod _ _ _ (Nat.lt_succ_of_lt hx)
      constructor
      · intro hm
        rw [hmod] at hm
        exact absurd hm (Nat.ne_of_lt hx)
      · intro _
        exact Or.inr (hb' ▸ paletteChar_mem ⟨v, z, u⟩)
    · rw [List.getElem?_set_ne (fun h => hij h.symm)] at hib
      exact hinv.2 i b hib

theorem poke_newlines (fb fb' : FrameBuffer) (x y : ℕ) (v z u : ℝ)
    (hx : x < fb.sx)
    (hp : fb.poke_if x y v z u = some fb') :
    ∀ r, fb'.brightness[r * (fb.sx + 1) + fb.sx]? =
      fb.brightness[r * (fb.sx + 1) + fb.sx]? := by
  intro r
  rcases poke_if_shape fb fb' x y v z u hp with rfl | ⟨_, rfl⟩
  · rfl
  · show (fb.brightness.set _ _)[r * (fb.sx + 1) + fb.sx]? = _
    refine List.getElem?_set_ne fun h => ?_
    have h1 : (y * (fb.sx + 1) + x) % (fb.sx + 1) = x :=
      cell_index_mod _ _ _ (Nat.lt_succ_of_lt hx)
    have h2 : (r * (fb.sx + 1) + fb.sx) % (fb.sx + 1) = fb.sx :=
      cell_index_mod _ _ _ (Nat.lt_succ_self _)
    rw [h] at h1
    rw [h1] at h2
    exact Nat.ne_of_lt hx h2

theorem charInv_ascii (fb : FrameBuffer) (hinv : charInv fb) :
    ∀ (i b : ℕ), fb.brightness[i]? = some b → b < 128 := by
  intro i b hib
  obtain ⟨h10, hrest⟩ := hinv.2 i b hib
  by_cases hm : i % (fb.sx + 1) = fb.sx
  · rw [h10 hm]; norm_num
  · rcases hrest hm with rfl | hmem
    · norm_num
    · exact mem_palette_lt_128 b hmem

/-- C9: after a clear the character buffer holds only blanks and row-final
newlines; `poke_if` with `x < sx`, `y < sy` only ever adds palette bytes,
never touches a row's newline byte, and every byte that can ever appear is
ASCII (< 128), so the unchecked byte-to-UTF-8 view in `write` is valid. -/
theorem C9_char_bytes_invariant :
    (∀ (fb : FrameBuffer) (sx sy : ℕ), charInv (fb.clear sx sy)) ∧
    (∀ (fb : FrameBuffer) (x y : ℕ) (v z u : ℝ) (fb' : FrameBuffer),
      x < fb.sx → y < fb.sy → fb.poke_if x y v z u = some fb' →
      (charInv fb → charInv fb') ∧
      ∀ r, fb'.brightness[r * (fb.sx + 1) + fb.sx]? =
        fb.brightness[r * (fb.sx + 1) + fb.sx]?) ∧
    (∀ fb : FrameBuffer, charInv fb →
      ∀ (i b : ℕ), fb.brightness[i]? = some b → b < 128) :=
  ⟨charInv_clear,
   fun fb x y v z u fb' hx _hy hp =>
     ⟨charInv_poke fb fb' x y v z u hx hp, poke_newlines fb fb' x y v z u hx hp⟩,
   charInv_ascii⟩

/-- C9 witness: the invariant holds for a concrete 1×1 clear, and the
newline byte it stores at index 1 is ASCII. -/
theorem C9_witness :
    charInv (FrameBuffer.clear ⟨[], [], 0, 0⟩ 1 1) ∧ (10 : ℕ) < 128 := by
  refine ⟨C9_char_bytes_invariant.1 ⟨[], [], 0, 0⟩ 1 1, ?_⟩
  refine C9_char_bytes_invariant.2.2 (FrameBuffer.clear ⟨[], [], 0, 0⟩ 1 1)
    (C9_char_bytes_invariant.1 ⟨[], [], 0, 0⟩ 1 1) 1 10 ?_
  have := clear_b_get ⟨[], [], 0, 0⟩ 1 1 1 (by norm_num)
  simpa using this

theorem pokeCell_fst (s : ℝ × ℕ) (p : Poke) : (pokeCell s p).1 = max s.1 p.z := by
  rw [pokeCell]
  split
  · exact (max_eq_right (le_of_lt (by assumption))).symm
  · exact (max_eq_left (not_lt.1 (by assumption))).symm

theorem pokeCell_no_write (s : ℝ × ℕ) (p : Poke) (h : p.z ≤ s.1) :
    pokeCell s p = s := by
  rw [pokeCell, if_neg (not_lt.2 h)]

theorem cellFold_depth (L : List Poke) : ∀ s : ℝ × ℕ,
    (L.foldl pokeCell s).1 = L.foldl (fun m p => max m p.z) s.1 := by
  induction L with
  | nil => intro s; rfl
  | cons p t ih =>
    intro s
    rw [List.foldl_cons, List.foldl_cons, ih, pokeCell_fst]

theorem foldl_max_init_le (L : List Poke) :
    ∀ a : ℝ, a ≤ L.foldl (fun m p => max m p.z) a := by
  induction L with
  | nil => intro a; exact le_refl a
  | cons p t ih =>
    intro a
    rw [List.foldl_cons]
    exact le_trans (le_max_left a p.z) (ih (max a p.z))

theorem foldl_max_getD_le (L : List Poke) :
    ∀ (a : ℝ) (j : ℕ), j < L.length →
      (L.getD j default).z ≤ L.foldl (fun m p => max m p.z) a := by
  induction L with
  | nil => intro a j h; exact absurd h (Nat.not_lt_zero j)
  | cons p t ih =>
    intro a j hj
    rw [List.foldl_cons]
    cases j with
    | zero =>
      rw [List.getD_cons_zero]
      exact le_trans (le_max_right a p.z) (foldl_max_init_le t (max a p.z))
    | succ j =>
      rw [List.getD_cons_succ]
      exact ih (max a p.z) j (by simpa using Nat.lt_of_succ_lt_succ hj)

theorem foldl_max_attained (L : List Poke) :
    ∀ a : ℝ, a < L.foldl (fun m p => max m p.z) a →
      ∃ j, j < L.length ∧
        (L.getD j default).z = L.foldl (fun m p => max m p.z) a := by
  induction L with
  | nil => intro a ha; exact absurd ha (lt_irrefl a)
  | cons p t ih =>
    intro a ha
    rw [List.foldl_cons] at ha ⊢
    by_cases hlt : max a p.z < t.foldl (fun m p => max m p.z) (max a p.z)
    · obtain ⟨j, hj, hz⟩ := ih (max a p.z) hlt
      refine ⟨j + 1, by simpa using Nat.succ_lt_succ hj, ?_⟩
      rw [List.getD_cons_succ]
      exact hz
    · have hm : t.foldl (fun m p => max m p.z) (max a p.z) = max a p.z :=
        le_antisymm (not_lt.1 hlt) (foldl_max_init_le t (max a p.z))
      refine ⟨0, Nat.succ_pos _, ?_⟩
      rw [List.getD_cons_zero, hm]
      rcases max_cases a p.z with ⟨he, _⟩ | ⟨he, _⟩
      · rw [hm] at ha
        rw [he] at ha
        exact absurd ha (lt_irrefl a)
      · rw [he]

theorem maxDepth_append (L : List Poke) (p : Poke) :
    maxDepth (L ++ [p]) = max (maxDepth L) p.z := by
  rw [maxDepth, maxDepth, List.foldl_append, List.foldl_cons, List.foldl_nil]

theorem cellFold_blank (L : List Poke) :
    (∀ p ∈ L, p.z ≤ -1000) →
    L.foldl pokeCell ((-1000 : ℝ), (32 : ℕ)) = (-1000, 32) := by
  induction L with
  | nil => intro _; rfl
  | cons p t ih =>
    intro h
    rw [List.foldl_cons,
      pokeCell_no_write _ _ (h p (List.mem_cons_self p t)),
      ih fun q hq => h q (List.mem_cons_of_mem p hq)]

theorem poke_getD_append (t : List Poke) (p : Poke) (j : ℕ) (hj : j < t.length) :
    (t ++ [p]).getD j default = t.getD j default := by
  rw [List.getD_eq_getElem?_getD, List.getD_eq_getElem?_getD,
    List.getElem?_append, if_pos hj]

theorem poke_getD_append_last (t : List Poke) (p : Poke) :
    (t ++ [p]).getD t.length default = p := by
  rw [List.getD_eq_getElem?_getD, List.getElem?_append, if_neg (lt_irrefl _)]
  simp

theorem cellFold_first_max (L : List Poke) :
    ∀ j : ℕ, -1000 < maxDepth L → j < L.length →
      (L.getD j default).z = maxDepth L →
      (∀ k, k < j → (L.getD k default).z ≠ maxDepth L) →
      (L.foldl pokeCell ((-1000 : ℝ), (32 : ℕ))).2 =
        paletteChar (L.getD j default) := by
  induction L using List.reverseRecOn with
  | nil =>
    intro j hm _
    rw [maxDepth] at hm
    exact absurd hm (lt_irrefl _)
  | append_singleton t p ih =>
    intro j hm hj hjz hfirst
    have hmax : maxDepth (t ++ [p]) = max (maxDepth t) p.z := maxDepth_append t p
    have hfold : (t ++ [p]).foldl pokeCell ((-1000 : ℝ), (32 : ℕ)) =
        pokeCell (t.foldl pokeCell (-1000, 32)) p := by
      rw [List.foldl_append, List.foldl_cons, List.foldl_nil]
    have hd : (t.foldl pokeCell ((-1000 : ℝ), (32 : ℕ))).1 = maxDepth t :=
      cellFold_depth t _
    have hjlen : j < t.length + 1 := by
      rw [List.length_append] at hj
      simpa using hj
    by_cases hcase : maxDepth t < p.z
    · have hmp : maxDepth (t ++ [p]) = p.z := by
        rw [hmax]
        exact max_eq_right (le_of_lt hcase)
      have hjt : j = t.length := by
        by_contra hne
        have hjlt : j < t.length := by omega
        have hle : (t.getD j default).z ≤ maxDepth t :=
          foldl_max_getD_le t (-1000) j hjlt
        rw [poke_getD_append t p j hjlt, hmp] at hjz
        rw [hjz] at hle
        exact absurd hcase (not_lt.2 hle)
      subst hjt
      rw [hfold, pokeCell, if_pos (by rw [hd]; exact hcase),
        poke_getD_append_last t p]
      rfl
    · push_neg at hcase
      have hmeq : maxDepth (t ++ [p]) = maxDepth t := by
        rw [hmax]
        exact max_eq_left hcase
      have hmt : -1000 < maxDepth t := hmeq ▸ hm
      have hjlt : j < t.length := by
        by_contra hge
        have hjt : j = t.length := by omega
        subst hjt
        obtain ⟨k, hk, hkz⟩ := foldl_max_attained t (-1000) hmt
        refine hfirst k hk ?_
        rw [poke_getD_append t p k hk, hmeq]
        exact hkz
      rw [hfold, pokeCell_no_write _ _ (by rw [hd]; exact hcase),
        poke_getD_append t p j hjlt]
      refine ih j hmt hjlt ?_ ?_
      · rw [poke_getD_append t p j hjlt, hmeq] at hjz
        exact hjz
      · intro k hk
        have := hfirst k hk
        rw [poke_getD_append t p k (Nat.lt_trans hk hjlt), hmeq] at this
        exact this

theorem runPokes_cells (x y : ℕ) (L : List Poke) :
    ∀ fb : FrameBuffer, x < fb.sx → y < fb.sy →
      fb.z_buffer.length = fb.sy * (fb.sx + 1) →
      fb.brightness.length = fb.sy * (fb.sx + 1) →
      ∃ fb', runPokes fb x y L = some fb' ∧
        fb'.sx = fb.sx ∧ fb'.sy = fb.sy ∧
        fb'.z_buffer.length = fb.z_buffer.length ∧
        fb'.brightness.length = fb.brightness.length ∧
        (zAt fb' (y * (fb.sx + 1) + x), bAt fb' (y * (fb.sx + 1) + x)) =
          L.foldl pokeCell
            (zAt fb (y * (fb.sx + 1) + x), bAt fb (y * (fb.sx + 1) + x)) := by
  induction L with
  | nil =>
    intro fb _ _ _ _
    exact ⟨fb, rfl, rfl, rfl, rfl, rfl, rfl⟩
  | cons p t ih =>
    intro fb hx hy hlz hlb
    obtain ⟨fb1, hp1, hsx1, hsy1, hlz1, hlb1, hcell1, _, _⟩ :=
      poke_if_cells fb x y p.value p.z p.u hx hy hlz hlb
    obtain ⟨fb', hrun, hsx', hsy', hlz', hlb', hcell'⟩ :=
      ih fb1 (hsx1 ▸ hx) (hsy1 ▸ hy)
        (by rw [hlz1, hlz, hsx1, hsy1]) (by rw [hlb1, hlb, hsx1, hsy1])
    refine ⟨fb', ?_, hsx'.trans hsx1, hsy'.trans hsy1,
      hlz'.trans hlz1, hlb'.trans hlb1, ?_⟩
    · rw [runPokes, List.foldl_cons]
      show List.foldl _ ((some fb).bind _) t = some fb'
      rw [Option.some_bind, hp1]
      exact hrun
    · rw [List.foldl_cons, ← hcell1]
      have hix : y * (fb.sx + 1) + x = y * (fb1.sx + 1) + x := by rw [hsx1]
      rw [hix]
      exact hcell'

/-- C1: after a clear, any sequence of `poke_if` calls on the one cell
`(x, y)` leaves the stored depth equal to the maximum of the far sentinel
`-1000` and all depth arguments; a call writes only when its depth is
strictly greater than the stored depth (so the first writer wins exact
ties), and the stored character is the palette byte derived from the light
value of the first call attaining the maximum depth. -/
theorem C1_depth_test_monotonicity (fb0 : FrameBuffer) (sx sy x y : ℕ)
    (hx : x < sx) (hy : y < sy) (L : List Poke) :
    (∀ (s : ℝ × ℕ) (p : Poke), p.z ≤ s.1 → pokeCell s p = s) ∧
    ∃ fb', runPokes (fb0.clear sx sy) x y L = some fb' ∧
      zAt fb' (y * (sx + 1) + x) = maxDepth L ∧
      ((∀ p ∈ L, p.z ≤ -1000) → bAt fb' (y * (sx + 1) + x) = 32) ∧
      (∀ j, -1000 < maxDepth L → j < L.length →
        (L.getD j default).z = maxDepth L →
        (∀ k, k < j → (L.getD k default).z ≠ maxDepth L) →
        bAt fb' (y * (sx + 1) + x) = paletteChar (L.getD j default)) := by
  refine ⟨pokeCell_no_write, ?_⟩
  obtain ⟨fb', hrun, _, _, _, _, hcell⟩ :=
    runPokes_cells x y L (fb0.clear sx sy) hx hy
      (clear_z_length fb0 sx sy) (clear_b_length fb0 sx sy)
  rw [clear_sx] at hcell
  have hixlt : y * (sx + 1) + x < sy * (sx + 1) := cell_index_lt sx sy x y hx hy
  have hz0 : zAt (fb0.clear sx sy) (y * (sx + 1) + x) = -1000 := by
    rw [zAt, List.getD_eq_getElem?_getD, clear_z_get fb0 sx sy _, if_pos hixlt]
    rfl
  have hb0 : bAt (fb0.clear sx sy) (y * (sx + 1) + x) = 32 := by
    rw [bAt, List.getD_eq_getElem?_getD, clear_b_get fb0 sx sy _ hixlt,
      if_neg (by rw [cell_index_mod sx x y (Nat.lt_succ_of_lt hx)]; exact Nat.ne_of_lt hx)]
    rfl
  rw [hz0, hb0] at hcell
  refine ⟨fb', hrun, ?_, ?_, ?_⟩
  · have := congrArg Prod.fst hcell
    simpa [cellFold_depth, maxDepth] using this
  · intro hall
    have := congrArg Prod.snd hcell
    rw [cellFold_blank L hall] at this
    simpa using this
  · intro j hm hj hjz hfirst
    have := congrArg Prod.snd hcell
    rw [cellFold_first_max L j hm hj hjz hfirst] at this
    simpa using this

/-- C1 witness: two pokes at cell (0,0) of a 1×1 buffer; the first (depth 1,
light 0.5, palette byte 59) wins, the second (depth 0.5) is discarded. -/
theorem C1_witness :
    ∃ fb', runPokes (FrameBuffer.clear ⟨[], [], 0, 0⟩ 1 1) 0 0
        [⟨0.5, 1, 0⟩, ⟨0.9, 0.5, 0⟩] = some fb' ∧
      zAt fb' 0 = 1 ∧ bAt fb' 0 = 59 := by
  obtain ⟨-, fb', hrun, hz, -, hchar⟩ :=
    C1_depth_test_monotonicity ⟨[], [], 0, 0⟩ 1 1 0 0 (by norm_num) (by norm_num)
      [⟨0.5, 1, 0⟩, ⟨0.9, 0.5, 0⟩]
  have hmax : maxDepth [(⟨0.5, 1, 0⟩ : Poke), ⟨0.9, 0.5, 0⟩] = 1 := by
    rw [maxDepth, List.foldl_cons, List.foldl_cons, List.foldl_nil]
    rw [max_eq_right (by norm_num : (-1000 : ℝ) ≤ 1)]
    exact max_eq_left (by norm_num)
  have hpal : paletteChar ⟨0.5, 1, 0⟩ = 59 := by
    have hra : roundAway (0.5 * (lightlevelStr.length : ℝ) + 0) = 5 := by
      rw [roundAway, if_pos (by norm_num [lightlevelStr]), Int.floor_eq_iff]
      norm_num [lightlevelStr]
    rw [paletteChar, dither, hra]
    norm_num [lightlevelStr]
    decide
  refine ⟨fb', hrun, ?_, ?_⟩
  · have := hz
    rw [hmax] at this
    simpa using this
  · have h := hchar 0 (by rw [hmax]; norm_num) (by norm_num)
      (by rw [List.getD_cons_zero, hmax]) (fun k hk => absurd hk (Nat.not_lt_zero k))
    rw [List.getD_cons_zero, hpal] at h
    simpa using h

theorem relu_eq_max (x : ℝ) : relu x = max 0 x := by
  rw [relu]
  split
  · exact (max_eq_right (by assumption)).symm
  · exact (max_eq_left (le_of_lt (not_le.1 (by assumption)))).symm

/-- C3: the lighting block computes
`min(0.75*max(0, n·ld) + 0.25*(2*max(0, n·ld)*(n·cv) - ld·cv)^3, 0.99)`,
and in particular it is bounded above by 0.99 for all inputs (only an
upper clamp; no lower clamp). -/
theorem C3_lighting_formula (n cv ld : Vec3) :
    lightCode n cv ld =
      min (0.75 * max 0 (dot3 n ld) +
        0.25 * (2 * max 0 (dot3 n ld) * dot3 n cv - dot3 ld cv) ^ 3) 0.99 ∧
    lightCode n cv ld ≤ 0.99 := by
  constructor
  · simp only [lightCode, relu_eq_max]
    set a := max 0 (dot3 n ld) with ha
    set r := 2 * a * dot3 n cv - dot3 ld cv with hr
    rw [show (0.75 * a + 0.25 * r * r * r : ℝ) = 0.75 * a + 0.25 * r ^ 3 by ring,
      min_def]
    by_cases h : 0.75 * a + 0.25 * r ^ 3 ≤ 0.99
    · rw [if_neg (not_lt.2 h), if_pos h]
    · rw [if_pos (not_le.1 h), if_neg h]
  · simp only [lightCode]
    split
    · exact le_refl _
    · exact le_of_not_lt (by assumption)

/-- C5: a sample whose screen point is off screen, whose normal faces away
from the camera, or whose computed light is nonpositive never writes to the
frame buffer: `cullDraw` returns the buffer unchanged. -/
theorem C5_cull_no_write (fb : FrameBuffer) (pS pW n : Vec3) (u1 u2 u3 : ℝ)
    (h : pS.x < 0 ∨ pS.y < 0 ∨ (fb.sx : ℝ) ≤ pS.x ∨ (fb.sy : ℝ) ≤ pS.y ∨
      0 < dot3 (camVec pW) n ∨ lightCode n (camVec pW) lightDir ≤ 0) :
    cullDraw fb pS pW n u1 u2 u3 = some fb := by
  simp only [cullDraw]
  by_cases hc : pS.x < 0 ∨ pS.y < 0 ∨ 0 < dot3 (camVec pW) n ∨
      (fb.sx : ℝ) ≤ pS.x ∨ (fb.sy : ℝ) ≤ pS.y
  · rw [if_pos hc]
  · rw [if_neg hc]
    have hl : lightCode n (camVec pW) lightDir ≤ 0 := by tauto
    rw [if_neg (not_lt.2 hl)]

/-- C5 witness: a screen point left of the screen (`x = -1`) is culled. -/
theorem C5_witness :
    cullDraw (FrameBuffer.clear ⟨[], [], 0, 0⟩ 2 2) ⟨-1, 0, 0⟩ ⟨0, 0, 0⟩
        ⟨0, 0, 1⟩ 0 0 0 =
      some (FrameBuffer.clear ⟨[], [], 0, 0⟩ 2 2) :=
  C5_cull_no_write _ _ _ _ _ _ _ (Or.inl (show (-1 : ℝ) < 0 by norm_num))

theorem screenspaceChecked_pos (sx sy : ℕ) (hx : 0 < sx) (hy : 0 < sy) :
    screenspaceChecked sx sy = some (screenspace sx sy) := by
  have hmin : ((min sx sy : ℕ) : ℝ) ≠ 0 := Nat.cast_ne_zero.2 (by omega)
  have hmax : ((max sx sy : ℕ) : ℝ) ≠ 0 := Nat.cast_ne_zero.2 (by omega)
  rw [screenspaceChecked, newPerspectiveChecked, if_neg (div_ne_zero hmin hmax)]
  rfl

/-- C8: the claim fails on the program.  When the terminal reports
`sx = 0` or `sy = 0` (the other dimension positive, so the aspect ratio
`min/max` is exactly `0`), building the frame's `screenspace` matrix
already panics inside nalgebra's `Perspective3::new` zero-aspect
assertion, before any sample is processed: the frame is not handled as
"no drawable samples" by the on-screen cull. -/
theorem C8_zero_aspect_panics (sx sy : ℕ) (h : sx = 0 ∨ sy = 0)
    (hpos : 0 < max sx sy) :
    screenspaceChecked sx sy = none := by
  have hmin : min sx sy = 0 := by
    rcases h with rfl | rfl <;> omega
  rw [screenspaceChecked, newPerspectiveChecked, hmin]
  simp

/-- C8 witness: a 0×24 terminal panics while building the perspective
matrix of the first frame. -/
theorem C8_witness : screenspaceChecked 0 24 = none :=
  C8_zero_aspect_panics 0 24 (Or.inl rfl) (by omega)

theorem transformPoint_mul (m n : Mat4) (hn : affineRow3 n) (p : Vec3) :
    transformPoint (m * n) p = transformPoint m (transformPoint n p) := by
  obtain ⟨h0, h1, h2, h3⟩ := hn
  simp only [transformPoint, Matrix.mul_apply, Fin.sum_univ_four, h0, h1, h2, h3]
  rw [Vec3.mk.injEq]
  norm_num
  refine ⟨?_, ?_, ?_⟩ <;> ring

theorem transformVector_mul (m n : Mat4) (hn : affineRow3 n) (v : Vec3) :
    transformVector (m * n) v = transformVector m (transformVector n v) := by
  obtain ⟨h0, h1, h2, _⟩ := hn
  simp only [transformVector, Matrix.mul_apply, Fin.sum_univ_four, h0, h1, h2]
  rw [Vec3.mk.injEq]
  refine ⟨?_, ?_, ?_⟩ <;> ring

theorem affineRow3_rotX (t : ℝ) : affineRow3 (rotX t) := ⟨rfl, rfl, rfl, rfl⟩

theorem affineRow3_rotY (t : ℝ) : affineRow3 (rotY t) := ⟨rfl, rfl, rfl, rfl⟩

theorem affineRow3_rotZ (t : ℝ) : affineRow3 (rotZ t) := ⟨rfl, rfl, rfl, rfl⟩

theorem affineRow3_mul (m n : Mat4) (hm : affineRow3 m) (hn : affineRow3 n) :
    affineRow3 (m * n) := by
  obtain ⟨hm0, hm1, hm2, hm3⟩ := hm
  obtain ⟨hn0, hn1, hn2, hn3⟩ := hn
  refine ⟨?_, ?_, ?_, ?_⟩ <;>
    simp [Matrix.mul_apply, Fin.sum_univ_four, hm0, hm1, hm2, hm3, hn0, hn1, hn2, hn3]

theorem affineRow3_fromEuler (r p y : ℝ) : affineRow3 (fromEulerAngles r p y) :=
  affineRow3_mul _ _ (affineRow3_mul _ _ (affineRow3_rotZ y) (affineRow3_rotY p))
    (affineRow3_rotX r)

/-- C2: for every sample `(i1, i2)` and every global transform `G`, the
transform stage of `main` produces exactly
`p_world = G · Rot_z(φ1) · circle_point(φ2, R1, R2)`,
`n_world = normalize(G · Rot_z(φ1) · (cos φ2, 0, sin φ2))`, and
`p_screen = S · p_world` with homogeneous division, where `S` is the
`screenspace` product `Translate(0.5 sx, 0.5 sy, 0) · Scale(0.5 min(sx,sy)) ·
Perspective(min/max, 3.141/4, 0.1, 1000) · Translate(cam_pos)` (the
program's `two_pi`- and `3.141/4`-valued constants standing for the spec's
`2π` and 45°). -/
theorem C2_transform_stage (g : Mat4) (sx sy i1 i2 : ℕ) :
    sampleCode g sx sy i1 i2 =
      (specPWorld g i1 i2, specPScreen g sx sy i1 i2, specNWorld g i1 i2) := by
  simp only [sampleCode, specPWorld, specPScreen, specNWorld]
  rw [transformPoint_mul g (fromEulerAngles 0 0 (phi1 i1))
      (affineRow3_fromEuler 0 0 (phi1 i1)),
    transformVector_mul g (fromEulerAngles 0 0 (phi1 i1))
      (affineRow3_fromEuler 0 0 (phi1 i1))]

theorem vecHead_constant {n : ℕ} (a : ℝ) :
    Matrix.vecHead (fun _ : Fin (n + 1) => a) = a := rfl

theorem vecTail_constant {n : ℕ} (a : ℝ) :
    Matrix.vecTail (fun _ : Fin (n + 1) => a) = fun _ => a := rfl

theorem rotX_transpose (t : ℝ) : (rotX t).transpose =
    Matrix.of ![![1, 0, 0, 0],
                ![0, Real.cos t, Real.sin t, 0],
                ![0, -Real.sin t, Real.cos t, 0],
                ![0, 0, 0, 1]] := by
  ext i j
  fin_cases i <;> fin_cases j <;> rfl

theorem rigid_rotX (t : ℝ) : IsRigidRotation (rotX t) := by
  refine ⟨?_, ?_, rfl, rfl, rfl, rfl, rfl, rfl, rfl⟩
  · rw [rotX_transpose]
    ext i j
    fin_cases i <;> fin_cases j <;>
      simp [rotX, Matrix.mul_apply, Fin.sum_univ_four, Matrix.one_apply,
        vecHead_constant, vecTail_constant] <;>
      first
        | rfl
        | exact Or.inl rfl
        | exact Or.inr rfl
        | nlinarith [Real.sin_sq_add_cos_sq t]
  · simp [rotX, Matrix.det_succ_row_zero, Fin.sum_univ_succ, Matrix.det_fin_three,
      Fin.succAbove, Fin.lt_def, vecHead_constant, vecTail_constant]
    nlinarith [Real.sin_sq_add_cos_sq t]

theorem rotY_transpose (t : ℝ) : (rotY t).transpose =
    Matrix.of ![![Real.cos t, 0, -Real.sin t, 0],
                ![0, 1, 0, 0],
                ![Real.sin t, 0, Real.cos t, 0],
                ![0, 0, 0, 1]] := by
  ext i j
  fin_cases i <;> fin_cases j <;> rfl

theorem rigid_rotY (t : ℝ) : IsRigidRotation (rotY t) := by
  refine ⟨?_, ?_, rfl, rfl, rfl, rfl, rfl, rfl, rfl⟩
  · rw [rotY_transpose]
    ext i j
    fin_cases i <;> fin_cases j <;>
      simp [rotY, Matrix.mul_apply, Fin.sum_univ_four, Matrix.one_apply,
        vecHead_constant, vecTail_constant] <;>
      first
        | rfl
        | exact Or.inl rfl
        | exact Or.inr rfl
        | nlinarith [Real.sin_sq_add_cos_sq t]
  · simp [rotY, Matrix.det_succ_row_zero, Fin.sum_univ_succ, Matrix.det_fin_three,
      Fin.succAbove, Fin.lt_def, vecHead_constant, vecTail_constant]
    nlinarith [Real.sin_sq_add_cos_sq t]

theorem rotZ_transpose (t : ℝ) : (rotZ t).transpose =
    Matrix.of ![![Real.cos t, Real.sin t, 0, 0],
                ![-Real.sin t, Real.cos t, 0, 0],
                ![0, 0, 1, 0],
                ![0, 0, 0, 1]] := by
  ext i j
  fin_cases i <;> fin_cases j <;> rfl

theorem rigid_rotZ (t : ℝ) : IsRigidRotation (rotZ t) := by
  refine ⟨?_, ?_, rfl, rfl, rfl, rfl, rfl, rfl, rfl⟩
  · rw [rotZ_transpose]
    ext i j
    fin_cases i <;> fin_cases j <;>
      simp [rotZ, Matrix.mul_apply, Fin.sum_univ_four, Matrix.one_apply,
        vecHead_constant, vecTail_constant] <;>
      first
        | rfl
        | exact Or.inl rfl
        | exact Or.inr rfl
        | nlinarith [Real.sin_sq_add_cos_sq t]
  · simp [rotZ, Matrix.det_succ_row_zero, Fin.sum_univ_succ, Matrix.det_fin_three,
      Fin.succAbove, Fin.lt_def, vecHead_constant, vecTail_constant]
    nlinarith [Real.sin_sq_add_cos_sq t]

theorem rigid_one : IsRigidRotation (1 : Mat4) := by
  refine ⟨?_, Matrix.det_one, ?_, ?_, ?_, ?_, ?_, ?_, ?_⟩
  · rw [Matrix.transpose_one, Matrix.one_mul]
  all_goals simp [Matrix.one_apply]

theorem rigid_mul (m n : Mat4) (hm : IsRigidRotation m) (hn : IsRigidRotation n) :
    IsRigidRotation (m * n) := by
  obtain ⟨hmo, hmd, hm03, hm13, hm23, hm30, hm31, hm32, hm33⟩ := hm
  obtain ⟨hno, hnd, hn03, hn13, hn23, hn30, hn31, hn32, hn33⟩ := hn
  refine ⟨?_, ?_, ?_, ?_, ?_, ?_, ?_, ?_, ?_⟩
  · rw [Matrix.transpose_mul, Matrix.mul_assoc, ← Matrix.mul_assoc m.transpose,
      hmo, Matrix.one_mul, hno]
  · rw [Matrix.det_mul, hmd, hnd, one_mul]
  all_goals
    simp [Matrix.mul_apply, Fin.sum_univ_four, hm03, hm13, hm23, hm30, hm31,
      hm32, hm33, hn03, hn13, hn23, hn30, hn31, hn32, hn33]

theorem rigid_fromEuler (r p y : ℝ) : IsRigidRotation (fromEulerAngles r p y) :=
  rigid_mul _ _ (rigid_mul _ _ (rigid_rotZ y) (rigid_rotY p)) (rigid_rotX r)

theorem rigid_globalTransformAfter (k : ℕ) :
    IsRigidRotation (globalTransformAfter k) := by
  induction k with
  | zero => exact rigid_one
  | succ k ih =>
    exact rigid_mul _ _ (rigid_mul _ _ ih (rigid_fromEuler 0 0 0.03))
      (rigid_fromEuler 0.1 (-0.05) 0)

/-- C7: the global transform starts as the identity and each frame is
replaced by itself right-composed with the two fixed small-angle euler
rotations (`Rz(0.03)` and the roll/pitch rotation `(0.1, -0.05)`); after
every frame it is still a rigid rotation: orthogonal 4×4 matrix with
determinant 1, empty translation column and affine last row. -/
theorem C7_global_transform_rigid (k : ℕ) :
    globalTransformAfter 0 = 1 ∧
    globalTransformAfter (k + 1) =
      globalTransformAfter k * fromEulerAngles 0 0 0.03 *
        fromEulerAngles 0.1 (-0.05) 0 ∧
    IsRigidRotation (globalTransformAfter k) :=
  ⟨rfl, rfl, rigid_globalTransformAfter k⟩

end Donut
